import Mathlib

/-!
Verification development for the BBBDownloader subtitle synthesis engine.

The embedding models `src/subtitles.py` and `src/chat_conversion.py`.
All time offsets and durations are integer microseconds (`ℤ`): Python's
`datetime.timedelta` stores an exact integer count of microseconds, and
every arithmetic operation used by the source (`+`, `-`, `min`, comparison,
`timedelta / int`, `ceil(timedelta / timedelta)`) is exact integer or
rational arithmetic on that count.  `timedelta / int` rounds the true
quotient to the nearest microsecond with ties to even (CPython
`divide_nearest`), which `divNearest` reproduces.  `ceil` of the quotient
of two timedeltas is modelled as the exact ceiling of the rational
quotient.
-/

/-- `MAX_VALID_MP4_DURATION` from `src/subtitles.py`: `2**31 - 1` microseconds. -/
def MAX_VALID_MP4_DURATION : ℤ := 2 ^ 31 - 1

/-- Python `timedelta / int`: the true quotient rounded to the nearest
integer (of microseconds), ties to even — CPython's `divide_nearest` on the
floor `divmod` pair.  `%` / `/` on `ℤ` are Euclidean, which for a positive
divisor coincides with Python's floor `divmod`. -/
def divNearest (m n : ℤ) : ℤ :=
  let q := m / n
  let r := m % n
  if n < 2 * r then q + 1
  else if 2 * r = n then (if q % 2 = 0 then q else q + 1) else q

/-- Python `math.ceil(a / b)` for positive `b` (exact rational quotient). -/
def ceilDiv (a b : ℤ) : ℤ := (a + b - 1) / b

/-- `SubtitlesEntry` from `src/subtitles.py` (frozen dataclass). -/
structure SubtitlesEntry where
  text : String
  start_time : ℤ
  end_time : ℤ
deriving DecidableEq, Repr

/-- `__split_entry` from `src/subtitles.py`: a cue whose duration is at most
`MAX_VALID_MP4_DURATION` is yielded unchanged; otherwise it is split into
`parts = ceil(duration / MAX_VALID_MP4_DURATION)` sub-cues, the first
`parts - 1` of duration `duration_per_one = duration / parts`, the last one
ending at the original `end_time`. -/
def split_entry (entry : SubtitlesEntry) : List SubtitlesEntry :=
  let duration := entry.end_time - entry.start_time
  if duration ≤ MAX_VALID_MP4_DURATION then [entry]
  else
    let parts := (ceilDiv duration MAX_VALID_MP4_DURATION).toNat
    let duration_per_one := divNearest duration (parts : ℤ)
    ((List.range (parts - 1)).map fun i : ℕ =>
      SubtitlesEntry.mk entry.text (entry.start_time + duration_per_one * (i : ℤ))
        (entry.start_time + duration_per_one * (i : ℤ) + duration_per_one))
    ++ [SubtitlesEntry.mk entry.text
          (entry.start_time + duration_per_one * ((parts : ℤ) - 1)) entry.end_time]

/-- `__fill_gapes` from `src/subtitles.py`.  For fewer than two entries the
generator returns without yielding anything, so the consumer sees the empty
sequence.  Otherwise a sentinel placeholder entry `(gape_placeholder, 0, 0)`
is prepended and consecutive pairs are walked: whenever
`current.start_time - previous.end_time > MAX_VALID_MP4_DURATION` a
placeholder cue spanning the gap is yielded before the current entry. -/
def fill_gapes (entries : List SubtitlesEntry) (gape_placeholder : String) :
    List SubtitlesEntry :=
  if entries.length < 2 then []
  else
    let es := SubtitlesEntry.mk gape_placeholder 0 0 :: entries
    (es.zip es.tail).flatMap fun pc =>
      (if MAX_VALID_MP4_DURATION < pc.2.start_time - pc.1.end_time
       then [SubtitlesEntry.mk gape_placeholder pc.1.end_time pc.2.start_time]
       else [])
      ++ [SubtitlesEntry.mk pc.2.text pc.2.start_time pc.2.end_time]

/-- The final clamping statement of `apply_mp4_fixes`
(`result[-1] = SubtitlesEntry(text, start, min(end, recording_duration))`),
a no-op on the empty list (`if result and ...`). -/
def clampLast : List SubtitlesEntry → ℤ → List SubtitlesEntry
  | [], _ => []
  | [e], recording_duration =>
      [SubtitlesEntry.mk e.text e.start_time (min e.end_time recording_duration)]
  | e :: e' :: rest, recording_duration => e :: clampLast (e' :: rest) recording_duration

/-- `apply_mp4_fixes` from `src/subtitles.py`: gap filling, then splitting of
each resulting entry, then (when a recording duration is supplied and the
result is non-empty) clamping of the last entry's end. -/
def apply_mp4_fixes (entries : List SubtitlesEntry) (recording_duration : Option ℤ)
    (gape_placeholder : String) : List SubtitlesEntry :=
  let result := (fill_gapes entries gape_placeholder).flatMap split_entry
  match recording_duration with
  | none => result
  | some d => clampLast result d

/-- `BbbChatEntry` from `src/bbb_client.py`: speaker name, message text and
timestamp (offset from recording start). -/
structure BbbChatEntry where
  name : String
  message : String
  timestamp : ℤ
deriving DecidableEq, Repr

/-- `__build_text` from `src/chat_conversion.py`. -/
def build_text (entry : BbbChatEntry) : String := entry.name ++ ": " ++ entry.message

/-- One step of the `defaultdict(list)` grouping of `to_subtitles`:
`groups[entry.timestamp].append(entry)`.  If a group keyed by the entry's
timestamp already exists the entry is appended to it (the key keeps its
insertion position); otherwise a fresh group is appended at the end, matching
Python dict insertion order. -/
def addEntry (gs : List (ℤ × List BbbChatEntry)) (e : BbbChatEntry) :
    List (ℤ × List BbbChatEntry) :=
  match gs with
  | [] => [(e.timestamp, [e])]
  | (k, g) :: rest =>
      if e.timestamp = k then (k, g ++ [e]) :: rest
      else (k, g) :: addEntry rest e

/-- `groups = defaultdict(list); ...; values = [*groups.values()]` from
`to_subtitles` in `src/chat_conversion.py`. -/
def groupsByTimestamp (entries : List BbbChatEntry) : List (List BbbChatEntry) :=
  (entries.foldl addEntry []).map Prod.snd

/-- `group[0].timestamp` as read by `to_subtitles` / `__split_group`
(defaulting to `0` on the empty list, which Python never reaches). -/
def headTs : List BbbChatEntry → ℤ
  | [] => 0
  | e :: _ => e.timestamp

/-- The loop of `__split_group`: for each entry but the last, yield a cue of
width `part` starting at the accumulated `current_time`; the last entry's cue
ends at the precomputed `group_end = start_time + duration`. -/
def split_group_go : List BbbChatEntry → ℤ → ℤ → ℤ → List SubtitlesEntry
  | [], _, _, _ => []
  | [e], current_time, _, group_end =>
      [SubtitlesEntry.mk (build_text e) current_time group_end]
  | e :: e' :: rest, current_time, part, group_end =>
      SubtitlesEntry.mk (build_text e) current_time (current_time + part)
        :: split_group_go (e' :: rest) (current_time + part) part group_end

/-- `__split_group` from `src/chat_conversion.py`:
`part = duration / size` (timedelta division by int, i.e. `divNearest`),
cues start at `group[0].timestamp` and the final cue is pinned to
`start_time + duration`. -/
def split_group (group : List BbbChatEntry) (duration : ℤ) : List SubtitlesEntry :=
  match group with
  | [] => []
  | g0 :: _ =>
      split_group_go group g0.timestamp (divNearest duration (group.length : ℤ))
        (g0.timestamp + duration)

/-- The emission loop of `to_subtitles`: every group except the last is
allotted `min(max_duration, next_segment_time - current_segment_time)`, the
last group the full `max_duration`. -/
def emitGroups : List (List BbbChatEntry) → ℤ → List SubtitlesEntry
  | [], _ => []
  | [g], max_duration => split_group g max_duration
  | g :: g' :: rest, max_duration =>
      split_group g (min max_duration (headTs g' - headTs g))
        ++ emitGroups (g' :: rest) max_duration

/-- `to_subtitles` from `src/chat_conversion.py`. -/
def to_subtitles (entries : List BbbChatEntry) (max_duration : ℤ) :
    List SubtitlesEntry :=
  emitGroups (groupsByTimestamp entries) max_duration

/-- The gap-filling walk exactly as the spec sentence states it (claim-side
definition, used only to compare with `fill_gapes`): walk the cues with the
recording start, offset zero, as the implicit previous end before the first
cue; for each cue whose gap from the previous end strictly exceeds
`MAX_VALID_MP4_DURATION`, emit one placeholder cue spanning exactly that gap
before emitting the cue itself. -/
def gapWalk (gape_placeholder : String) (prev_end : ℤ) :
    List SubtitlesEntry → List SubtitlesEntry
  | [] => []
  | c :: rest =>
      (if MAX_VALID_MP4_DURATION < c.start_time - prev_end
       then [SubtitlesEntry.mk gape_placeholder prev_end c.start_time] else [])
      ++ c :: gapWalk gape_placeholder c.end_time rest

/-- The duration `to_subtitles` allots to group `g` when the remaining groups
after it are `rest`: `min(max_duration, next - current)` when a next group
exists, the full `max_duration` for the last group. -/
def allotted (max_duration : ℤ) (g : List BbbChatEntry) :
    List (List BbbChatEntry) → ℤ
  | [] => max_duration
  | g' :: _ => min max_duration (headTs g' - headTs g)

/-- Feasibility of the integer-microsecond split for every group: group size
`n` with allotted duration `d` must satisfy `n * (n - 1) ≤ 2 * d`, which rules
out the one failure mode of `timedelta`-rounded division (the pinned last cue
of a group starting after its end). -/
def groupsOk : List (List BbbChatEntry) → ℤ → Bool
  | [], _ => true
  | g :: rest, max_duration =>
      decide ((g.length : ℤ) * ((g.length : ℤ) - 1)
          ≤ 2 * allotted max_duration g rest)
        && groupsOk rest max_duration

/-- The contiguous block of cues that the `to_subtitles` loop produced for
group `i`: since each group of size `n` contributes exactly `n` cues, it is
the slice of the output starting after the cues of groups `0..i-1`. -/
def blockAt (gs : List (List BbbChatEntry)) (max_duration : ℤ) (i : ℕ) :
    List SubtitlesEntry :=
  ((emitGroups gs max_duration).drop (((gs.take i).map List.length).sum)).take
    (gs.getD i []).length

/-- The time span covered by a cue block: last end minus first start. -/
def cueSpan (l : List SubtitlesEntry) : ℤ :=
  (l.getLastD (SubtitlesEntry.mk "" 0 0)).end_time
    - (l.headD (SubtitlesEntry.mk "" 0 0)).start_time

/-! ### Arithmetic facts about the rounded division `divNearest` -/

theorem divNearest_nonneg {m n : ℤ} (hm : 0 ≤ m) (hn : 0 < n) :
    0 ≤ divNearest m n := by
  have hq : 0 ≤ m / n := Int.ediv_nonneg hm hn.le
  unfold divNearest
  dsimp only
  split_ifs <;> omega

theorem two_mul_divNearest_le (m n : ℤ) (hn : 0 < n) :
    2 * n * divNearest m n ≤ 2 * m + n := by
  have h := Int.ediv_add_emod m n
  have hr0 : 0 ≤ m % n := Int.emod_nonneg m hn.ne'
  have hrn : m % n < n := Int.emod_lt_of_pos m hn
  unfold divNearest
  dsimp only
  split_ifs with h1 h2 h3 <;> nlinarith [h, hr0, hrn]

theorem divNearest_mul_pred_le (m n : ℤ) (hn : 0 < n)
    (h : n * (n - 1) ≤ 2 * m) : (n - 1) * divNearest m n ≤ m := by
  have hb := two_mul_divNearest_le m n hn
  have hn1 : (0 : ℤ) ≤ n - 1 := by omega
  have h2 : 2 * n * ((n - 1) * divNearest m n) ≤ 2 * n * m := by
    nlinarith [mul_le_mul_of_nonneg_left hb hn1]
  exact le_of_mul_le_mul_left h2 (by positivity)

theorem nonneg_of_groupCond {n d : ℤ} (hn : 0 < n) (h : n * (n - 1) ≤ 2 * d) :
    0 ≤ d := by nlinarith

/-! ### Generic helpers on head and last -/

theorem head?_eq_headD {α : Type} {l : List α} (hl : l ≠ []) (d : α) :
    l.head? = some (l.headD d) := by
  cases l with
  | nil => exact absurd rfl hl
  | cons a t => rfl

theorem getLast?_eq_getLastD {α : Type} {l : List α} (hl : l ≠ []) (d : α) :
    l.getLast? = some (l.getLastD d) := by
  cases hx : l.getLast? with
  | none => exact absurd (List.getLast?_eq_none_iff.mp hx) hl
  | some y => rw [List.getLastD_eq_getLast?, hx]; rfl

/-! ### Structure of the `__split_group` loop -/

theorem split_group_go_length (l : List BbbChatEntry) (c p e : ℤ) :
    (split_group_go l c p e).length = l.length := by
  induction l generalizing c with
  | nil => rfl
  | cons a tail ih =>
    cases tail with
    | nil => rfl
    | cons b tail' => simp only [split_group_go, List.length_cons, ih]

theorem split_group_go_ne_nil {l : List BbbChatEntry} (hl : l ≠ []) (c p e : ℤ) :
    split_group_go l c p e ≠ [] := by
  cases l with
  | nil => exact absurd rfl hl
  | cons a tail => cases tail <;> simp [split_group_go]

theorem split_group_go_headD {l : List BbbChatEntry} (hl : l ≠ []) (c p e : ℤ)
    (d0 : SubtitlesEntry) : ((split_group_go l c p e).headD d0).start_time = c := by
  cases l with
  | nil => exact absurd rfl hl
  | cons a tail => cases tail <;> simp [split_group_go]

theorem split_group_go_lastD_end {l : List BbbChatEntry} (hl : l ≠ []) (c p e : ℤ)
    (d0 : SubtitlesEntry) : ((split_group_go l c p e).getLastD d0).end_time = e := by
  induction l generalizing c d0 with
  | nil => exact absurd rfl hl
  | cons a tail ih =>
    cases tail with
    | nil => simp [split_group_go]
    | cons b tail' =>
      rw [split_group_go, List.getLastD_cons]
      exact ih (by simp) (c + p) _

theorem split_group_go_lastD_start {l : List BbbChatEntry} (hl : l ≠ []) (c p e : ℤ)
    (d0 : SubtitlesEntry) :
    ((split_group_go l c p e).getLastD d0).start_time
      = c + p * ((l.length : ℤ) - 1) := by
  induction l generalizing c d0 with
  | nil => exact absurd rfl hl
  | cons a tail ih =>
    cases tail with
    | nil => simp [split_group_go]
    | cons b tail' =>
      rw [split_group_go, List.getLastD_cons, ih (by simp) (c + p)]
      simp only [List.length_cons]
      push_cast
      ring

theorem split_group_go_chain_eq (l : List BbbChatEntry) (c p e : ℤ) :
    (split_group_go l c p e).Chain' (fun a b => a.end_time = b.start_time) := by
  induction l generalizing c with
  | nil => simp [split_group_go]
  | cons a tail ih =>
    cases tail with
    | nil => simp [split_group_go]
    | cons b tail' =>
      rw [split_group_go, List.chain'_cons']
      refine ⟨fun y hy => ?_, ih (c + p)⟩
      rw [head?_eq_headD (split_group_go_ne_nil (by simp) (c + p) p e)
        (SubtitlesEntry.mk "" 0 0)] at hy
      cases hy
      rw [split_group_go_headD (by simp)]

theorem split_group_go_chain_start (l : List BbbChatEntry) (c p e : ℤ) (hp : 0 ≤ p) :
    (split_group_go l c p e).Chain' (fun a b => a.start_time ≤ b.start_time) := by
  induction l generalizing c with
  | nil => simp [split_group_go]
  | cons a tail ih =>
    cases tail with
    | nil => simp [split_group_go]
    | cons b tail' =>
      rw [split_group_go, List.chain'_cons']
      refine ⟨fun y hy => ?_, ih (c + p)⟩
      rw [head?_eq_headD (split_group_go_ne_nil (by simp) (c + p) p e)
        (SubtitlesEntry.mk "" 0 0)] at hy
      cases hy
      rw [split_group_go_headD (by simp)]
      simpa using hp

theorem split_group_go_start_le_end (l : List BbbChatEntry) (c p e : ℤ) (hp : 0 ≤ p)
    (hle : c + p * ((l.length : ℤ) - 1) ≤ e) :
    ∀ x ∈ split_group_go l c p e, x.start_time ≤ x.end_time := by
  induction l generalizing c with
  | nil => simp [split_group_go]
  | cons a tail ih =>
    cases tail with
    | nil =>
      simp only [split_group_go, List.mem_singleton]
      rintro x rfl
      simpa using hle
    | cons b tail' =>
      rw [split_group_go]
      intro x hx
      rcases List.mem_cons.mp hx with rfl | hx'
      · simpa using hp
      · refine ih (c + p) ?_ x hx'
        have hlen : ((a :: b :: tail').length : ℤ) = (tail'.length : ℤ) + 2 := by
          push_cast [List.length_cons]
          ring
        have hlen' : (((b :: tail').length : ℤ)) = (tail'.length : ℤ) + 1 := by
          push_cast [List.length_cons]
          ring
        rw [hlen'] at *
        rw [hlen] at hle
        linarith [hle]

theorem split_group_go_texts (l : List BbbChatEntry) (c p e : ℤ) :
    (split_group_go l c p e).map (fun x => x.text) = l.map build_text := by
  induction l generalizing c with
  | nil => rfl
  | cons a tail ih =>
    cases tail with
    | nil => rfl
    | cons b tail' => simp only [split_group_go, List.map_cons, ih]

theorem split_group_go_getD_lt (l : List BbbChatEntry) (c p e : ℤ) (i : ℕ)
    (hi : i + 1 < l.length) (d0 : SubtitlesEntry) :
    (split_group_go l c p e).getD i d0
      = SubtitlesEntry.mk (build_text (l.getD i (BbbChatEntry.mk "" "" 0)))
          (c + p * (i : ℤ)) (c + p * (i : ℤ) + p) := by
  induction l generalizing c i with
  | nil => simp at hi
  | cons a tail ih =>
    cases tail with
    | nil =>
      simp only [List.length_cons, List.length_nil] at hi
      omega
    | cons b tail' =>
      cases i with
      | zero =>
        rw [split_group_go]
        simp [List.getD_cons_zero]
      | succ i =>
        rw [split_group_go]
        rw [List.getD_cons_succ, List.getD_cons_succ]
        rw [ih (c + p) i (by simpa using hi)]
        push_cast
        ring_nf

theorem split_group_go_getD_last (l : List BbbChatEntry) (hl : l ≠ []) (c p e : ℤ)
    (d0 : SubtitlesEntry) :
    (split_group_go l c p e).getD (l.length - 1) d0
      = SubtitlesEntry.mk (build_text (l.getLast hl))
          (c + p * ((l.length : ℤ) - 1)) e := by
  induction l generalizing c with
  | nil => exact absurd rfl hl
  | cons a tail ih =>
    cases tail with
    | nil => simp [split_group_go]
    | cons b tail' =>
      rw [split_group_go]
      have hlen : (a :: b :: tail').length - 1 = ((b :: tail').length - 1) + 1 := by
        simp
      have ht : (a :: b :: tail').getLast hl = (b :: tail').getLast (by simp) :=
        List.getLast_cons (by simp)
      rw [hlen, List.getD_cons_succ, ih (by simp) (c + p), ht]
      simp only [List.length_cons, SubtitlesEntry.mk.injEq]
      refine ⟨trivial, ?_, trivial⟩
      push_cast
      ring

/-! ### Structure of `__split_group` -/

theorem split_group_length (g : List BbbChatEntry) (d : ℤ) :
    (split_group g d).length = g.length := by
  cases g with
  | nil => rfl
  | cons g0 rest => exact split_group_go_length _ _ _ _

theorem split_group_ne_nil {g : List BbbChatEntry} (hg : g ≠ []) (d : ℤ) :
    split_group g d ≠ [] := by
  cases g with
  | nil => exact absurd rfl hg
  | cons g0 rest => exact split_group_go_ne_nil (by simp) _ _ _

theorem split_group_headD {g : List BbbChatEntry} (hg : g ≠ []) (d : ℤ)
    (d0 : SubtitlesEntry) : ((split_group g d).headD d0).start_time = headTs g := by
  cases g with
  | nil => exact absurd rfl hg
  | cons g0 rest => exact split_group_go_headD (by simp) _ _ _ _

theorem split_group_lastD_end {g : List BbbChatEntry} (hg : g ≠ []) (d : ℤ)
    (d0 : SubtitlesEntry) :
    ((split_group g d).getLastD d0).end_time = headTs g + d := by
  cases g with
  | nil => exact absurd rfl hg
  | cons g0 rest => exact split_group_go_lastD_end (by simp) _ _ _ _

theorem split_group_lastD_start {g : List BbbChatEntry} (hg : g ≠ []) (d : ℤ)
    (d0 : SubtitlesEntry) :
    ((split_group g d).getLastD d0).start_time
      = headTs g + divNearest d (g.length : ℤ) * ((g.length : ℤ) - 1) := by
  cases g with
  | nil => exact absurd rfl hg
  | cons g0 rest => exact split_group_go_lastD_start (by simp) _ _ _ _

theorem split_group_chain_eq (g : List BbbChatEntry) (d : ℤ) :
    (split_group g d).Chain' (fun a b => a.end_time = b.start_time) := by
  cases g with
  | nil => simp [split_group]
  | cons g0 rest => exact split_group_go_chain_eq _ _ _ _

theorem split_group_chain_start (g : List BbbChatEntry) (d : ℤ) (hd : 0 ≤ d) :
    (split_group g d).Chain' (fun a b => a.start_time ≤ b.start_time) := by
  cases g with
  | nil => simp [split_group]
  | cons g0 rest =>
    exact split_group_go_chain_start _ _ _ _
      (divNearest_nonneg hd (by exact_mod_cast Nat.succ_pos rest.length))

theorem split_group_start_le_end (g : List BbbChatEntry) (d : ℤ)
    (hcond : (g.length : ℤ) * ((g.length : ℤ) - 1) ≤ 2 * d) :
    ∀ x ∈ split_group g d, x.start_time ≤ x.end_time := by
  cases g with
  | nil => simp [split_group]
  | cons g0 rest =>
    have hn : (0 : ℤ) < ((g0 :: rest).length : ℤ) := by
      exact_mod_cast Nat.succ_pos rest.length
    have hd : 0 ≤ d := nonneg_of_groupCond hn hcond
    refine split_group_go_start_le_end _ _ _ _ (divNearest_nonneg hd hn) ?_
    have hkey := divNearest_mul_pred_le d ((g0 :: rest).length : ℤ) hn hcond
    linarith [hkey]

/-! ### More helpers on head and last of appended lists -/

theorem headD_append_left {α : Type} {l l' : List α} (hl : l ≠ []) (d : α) :
    (l ++ l').headD d = l.headD d := by
  cases l with
  | nil => exact absurd rfl hl
  | cons a t => rfl

theorem getLastD_indep {α : Type} {l : List α} (hl : l ≠ []) (d d' : α) :
    l.getLastD d = l.getLastD d' := by
  cases hx : l.getLast? with
  | none => exact absurd (List.getLast?_eq_none_iff.mp hx) hl
  | some y => rw [List.getLastD_eq_getLast?, List.getLastD_eq_getLast?, hx]; rfl

theorem getLastD_append_right {α : Type} {l l' : List α} (hl' : l' ≠ []) :
    ∀ d : α, (l ++ l').getLastD d = l'.getLastD d := by
  induction l with
  | nil => intro d; rfl
  | cons a t ih =>
    intro d
    rw [List.cons_append, List.getLastD_cons, ih a]
    exact getLastD_indep hl' a d

/-! ### Structure of the `to_subtitles` emission loop -/

theorem emitGroups_cons (g : List BbbChatEntry) (rest : List (List BbbChatEntry))
    (max_duration : ℤ) :
    emitGroups (g :: rest) max_duration
      = split_group g (allotted max_duration g rest) ++ emitGroups rest max_duration := by
  cases rest with
  | nil => simp [emitGroups, allotted]
  | cons g' rest' => rfl

theorem emitGroups_ne_nil {gs : List (List BbbChatEntry)} (hgs : gs ≠ [])
    (hne : ∀ g ∈ gs, g ≠ []) (max_duration : ℤ) :
    emitGroups gs max_duration ≠ [] := by
  cases gs with
  | nil => exact absurd rfl hgs
  | cons g rest =>
    rw [emitGroups_cons]
    exact fun h =>
      split_group_ne_nil (hne g (by simp)) _ (List.append_eq_nil.mp h).1

theorem emitGroups_headD {g : List BbbChatEntry} (rest : List (List BbbChatEntry))
    (max_duration : ℤ) (hg : g ≠ []) (d0 : SubtitlesEntry) :
    ((emitGroups (g :: rest) max_duration).headD d0).start_time = headTs g := by
  rw [emitGroups_cons, headD_append_left (split_group_ne_nil hg _)]
  exact split_group_headD hg _ _

theorem emitGroups_lastD_end {gs : List (List BbbChatEntry)} (hgs : gs ≠ [])
    (hne : ∀ g ∈ gs, g ≠ []) (max_duration : ℤ) (d0 : SubtitlesEntry) :
    ((emitGroups gs max_duration).getLastD d0).end_time
      = headTs (gs.getLast hgs) + max_duration := by
  induction gs with
  | nil => exact absurd rfl hgs
  | cons g rest ih =>
    cases rest with
    | nil =>
      show ((split_group g max_duration).getLastD d0).end_time = _
      rw [split_group_lastD_end (hne g (by simp))]
      rfl
    | cons g' rest' =>
      have hne' : ∀ x ∈ g' :: rest', x ≠ [] :=
        fun x hx => hne x (List.mem_cons_of_mem g hx)
      rw [emitGroups_cons,
        getLastD_append_right (emitGroups_ne_nil (by simp) hne' max_duration),
        ih (by simp) hne',
        List.getLast_cons (by simp : (g' :: rest' : List (List BbbChatEntry)) ≠ [])]

theorem groupsOk_cons {g : List BbbChatEntry} {rest : List (List BbbChatEntry)}
    {max_duration : ℤ} :
    groupsOk (g :: rest) max_duration = true
      ↔ ((g.length : ℤ) * ((g.length : ℤ) - 1) ≤ 2 * allotted max_duration g rest)
        ∧ groupsOk rest max_duration = true := by
  simp [groupsOk, Bool.and_eq_true, decide_eq_true_eq]

theorem emitGroups_chain_le (gs : List (List BbbChatEntry)) (max_duration : ℤ)
    (hne : ∀ g ∈ gs, g ≠ []) :
    (emitGroups gs max_duration).Chain' (fun a b => a.end_time ≤ b.start_time) := by
  induction gs with
  | nil => simp [emitGroups]
  | cons g rest ih =>
    rw [emitGroups_cons, List.chain'_append]
    have hg : g ≠ [] := hne g (by simp)
    refine ⟨List.Chain'.imp (fun a b h => le_of_eq h) (split_group_chain_eq g _),
      ih (fun x hx => hne x (List.mem_cons_of_mem g hx)), ?_⟩
    intro x hx y hy
    rw [getLast?_eq_getLastD (split_group_ne_nil hg _) (SubtitlesEntry.mk "" 0 0)] at hx
    cases hx
    cases rest with
    | nil => simp [emitGroups] at hy
    | cons g' rest' =>
      rw [head?_eq_headD (emitGroups_ne_nil (by simp)
        (fun x hx => hne x (List.mem_cons_of_mem g hx)) max_duration)
        (SubtitlesEntry.mk "" 0 0)] at hy
      cases hy
      rw [split_group_lastD_end hg, emitGroups_headD rest' max_duration
        (hne g' (by simp)) (SubtitlesEntry.mk "" 0 0)]
      have hmin : allotted max_duration g (g' :: rest') ≤ headTs g' - headTs g :=
        min_le_right _ _
      linarith

theorem emitGroups_chain_start (gs : List (List BbbChatEntry)) (max_duration : ℤ)
    (hne : ∀ g ∈ gs, g ≠ []) (hok : groupsOk gs max_duration = true) :
    (emitGroups gs max_duration).Chain' (fun a b => a.start_time ≤ b.start_time) := by
  induction gs with
  | nil => simp [emitGroups]
  | cons g rest ih =>
    obtain ⟨hcond, hok'⟩ := groupsOk_cons.mp hok
    have hg : g ≠ [] := hne g (by simp)
    have hn : (0 : ℤ) < (g.length : ℤ) := by
      cases g with
      | nil => exact absurd rfl hg
      | cons a t => exact_mod_cast Nat.succ_pos t.length
    have hd : 0 ≤ allotted max_duration g rest := nonneg_of_groupCond hn hcond
    rw [emitGroups_cons, List.chain'_append]
    refine ⟨split_group_chain_start g _ hd,
      ih (fun x hx => hne x (List.mem_cons_of_mem g hx)) hok', ?_⟩
    intro x hx y hy
    rw [getLast?_eq_getLastD (split_group_ne_nil hg _) (SubtitlesEntry.mk "" 0 0)] at hx
    cases hx
    cases rest with
    | nil => simp [emitGroups] at hy
    | cons g' rest' =>
      rw [head?_eq_headD (emitGroups_ne_nil (by simp)
        (fun x hx => hne x (List.mem_cons_of_mem g hx)) max_duration)
        (SubtitlesEntry.mk "" 0 0)] at hy
      cases hy
      rw [split_group_lastD_start hg, emitGroups_headD rest' max_duration
        (hne g' (by simp)) (SubtitlesEntry.mk "" 0 0)]
      have hkey := divNearest_mul_pred_le (allotted max_duration g (g' :: rest'))
        (g.length : ℤ) hn hcond
      have hmin : allotted max_duration g (g' :: rest') ≤ headTs g' - headTs g :=
        min_le_right _ _
      nlinarith [hkey, hmin]

theorem emitGroups_start_le_end (gs : List (List BbbChatEntry)) (max_duration : ℤ)
    (hok : groupsOk gs max_duration = true) :
    ∀ c ∈ emitGroups gs max_duration, c.start_time ≤ c.end_time := by
  induction gs with
  | nil => simp [emitGroups]
  | cons g rest ih =>
    obtain ⟨hcond, hok'⟩ := groupsOk_cons.mp hok
    rw [emitGroups_cons]
    intro c hc
    rcases List.mem_append.mp hc with hc' | hc'
    · exact split_group_start_le_end g _ hcond c hc'
    · exact ih hok' c hc'

/-! ### The `defaultdict` grouping: invariants of `addEntry` folds -/

theorem addEntry_snd_ne_nil {L : List (ℤ × List BbbChatEntry)}
    (h : ∀ p ∈ L, p.2 ≠ []) (e : BbbChatEntry) :
    ∀ p ∈ addEntry L e, p.2 ≠ [] := by
  induction L with
  | nil =>
    intro p hp
    simp only [addEntry, List.mem_singleton] at hp
    subst hp
    simp
  | cons q rest ih =>
    obtain ⟨k, g⟩ := q
    intro p hp
    simp only [addEntry] at hp
    by_cases hk : e.timestamp = k
    · rw [if_pos hk] at hp
      rcases List.mem_cons.mp hp with rfl | hp'
      · simp
      · exact h p (List.mem_cons_of_mem _ hp')
    · rw [if_neg hk] at hp
      rcases List.mem_cons.mp hp with rfl | hp'
      · exact h (k, g) (by simp)
      · exact ih (fun p' hp'' => h p' (List.mem_cons_of_mem _ hp'')) p hp'

theorem foldl_addEntry_snd_ne_nil (entries : List BbbChatEntry) :
    ∀ L, (∀ p ∈ L, p.2 ≠ []) → ∀ p ∈ entries.foldl addEntry L, p.2 ≠ [] := by
  induction entries with
  | nil => intro L h; simpa using h
  | cons e rest ih =>
    intro L h
    rw [List.foldl_cons]
    exact ih _ (addEntry_snd_ne_nil h e)

theorem groupsByTimestamp_ne_nil (entries : List BbbChatEntry) :
    ∀ g ∈ groupsByTimestamp entries, g ≠ [] := by
  intro g hg
  rw [groupsByTimestamp] at hg
  obtain ⟨p, hp, rfl⟩ := List.mem_map.mp hg
  exact foldl_addEntry_snd_ne_nil entries [] (by simp) p hp

theorem addEntry_spec (L : List (ℤ × List BbbChatEntry)) (e : BbbChatEntry)
    (hinc : (L.map Prod.fst).Pairwise (fun a b => a < b))
    (hle : ∀ k ∈ L.map Prod.fst, k ≤ e.timestamp) :
    (∃ pre k g, L = pre ++ [(k, g)] ∧ k = e.timestamp
        ∧ addEntry L e = pre ++ [(k, g ++ [e])])
    ∨ ((∀ k ∈ L.map Prod.fst, k < e.timestamp)
        ∧ addEntry L e = L ++ [(e.timestamp, [e])]) := by
  induction L with
  | nil =>
    right
    exact ⟨by simp, by simp [addEntry]⟩
  | cons q rest ih =>
    obtain ⟨k, g⟩ := q
    rw [List.map_cons] at hinc
    have hinc1 := (List.pairwise_cons.mp hinc).1
    by_cases hk : e.timestamp = k
    · left
      have hrest : rest = [] := by
        cases rest with
        | nil => rfl
        | cons q' rest' =>
          exfalso
          have h1 : k < q'.1 :=
            hinc1 q'.1 (List.mem_map_of_mem Prod.fst (by simp))
          have h2 : q'.1 ≤ e.timestamp := hle q'.1 (by simp)
          omega
      subst hrest
      refine ⟨[], k, g, by simp, hk.symm, ?_⟩
      simp [addEntry, hk]
    · have hinc' : (rest.map Prod.fst).Pairwise (fun a b => a < b) :=
        (List.pairwise_cons.mp hinc).2
      have hle' : ∀ k' ∈ rest.map Prod.fst, k' ≤ e.timestamp :=
        fun k' h => hle k' (by simp [h])
      rcases ih hinc' hle' with ⟨pre, k', g', hL, hk', hadd⟩ | ⟨hlt, hadd⟩
      · left
        refine ⟨(k, g) :: pre, k', g', by rw [hL]; rfl, hk', ?_⟩
        simp only [addEntry, if_neg hk]
        rw [hadd]
        rfl
      · right
        constructor
        · intro k' hk'2
          have hk'3 : k' = k ∨ k' ∈ rest.map Prod.fst := by simpa using hk'2
          rcases hk'3 with rfl | hmem
          · have := hle k' (by simp)
            omega
          · exact hlt k' hmem
        · simp only [addEntry, if_neg hk]
          rw [hadd]
          rfl

theorem grouped_inv (entries : List BbbChatEntry)
    (hs : entries.Pairwise (fun a b => a.timestamp ≤ b.timestamp)) :
    (∀ p ∈ entries.foldl addEntry [], ∀ x ∈ p.2, x.timestamp = p.1)
    ∧ ((entries.foldl addEntry []).map Prod.fst).Pairwise (fun a b => a < b)
    ∧ ((entries.foldl addEntry []).map Prod.snd).flatten = entries := by
  induction entries using List.reverseRecOn with
  | nil => exact ⟨by simp, by simp, by simp⟩
  | append_singleton ys e ih =>
    have hys : ys.Pairwise (fun a b => a.timestamp ≤ b.timestamp) :=
      (List.pairwise_append.mp hs).1
    have hyse : ∀ y ∈ ys, y.timestamp ≤ e.timestamp := by
      have h3 := (List.pairwise_append.mp hs).2.2
      exact fun y hy => h3 y hy e (by simp)
    obtain ⟨hmem, hinc, hflat⟩ := ih hys
    have hle : ∀ k ∈ (ys.foldl addEntry []).map Prod.fst, k ≤ e.timestamp := by
      intro k hk
      obtain ⟨p, hp, rfl⟩ := List.mem_map.mp hk
      have hpne : p.2 ≠ [] := foldl_addEntry_snd_ne_nil ys [] (by simp) p hp
      obtain ⟨x, hx⟩ := List.exists_mem_of_ne_nil p.2 hpne
      have hxts : x.timestamp = p.1 := hmem p hp x hx
      have hxys : x ∈ ys := by
        rw [← hflat]
        exact List.mem_flatten.mpr ⟨p.2, List.mem_map_of_mem Prod.snd hp, hx⟩
      rw [← hxts]
      exact hyse x hxys
    rw [List.foldl_concat]
    rcases addEntry_spec _ e hinc hle with ⟨pre, k, g, hL, hke, hadd⟩ | ⟨hlt, hadd⟩
    · rw [hadd]
      refine ⟨?_, ?_, ?_⟩
      · intro p hp x hx
        rcases List.mem_append.mp hp with hp' | hp'
        · exact hmem p (by rw [hL]; exact List.mem_append_left _ hp') x hx
        · have hp2 : p = (k, g ++ [e]) := by simpa using hp'
          subst hp2
          rcases List.mem_append.mp hx with hx' | hx'
          · exact hmem (k, g) (by rw [hL]; simp) x hx'
          · have hxe : x = e := by simpa using hx'
            subst hxe
            exact hke.symm
      · have hmapeq : (pre ++ [(k, g ++ [e])]).map Prod.fst
            = (pre ++ [(k, g)]).map Prod.fst := by simp
        rw [hmapeq, ← hL]
        exact hinc
      · have h1 : ((ys.foldl addEntry []).map Prod.snd).flatten
            = (pre.map Prod.snd).flatten ++ g := by
          rw [hL]
          simp
        rw [h1] at hflat
        simp only [List.map_append, List.flatten_append, List.map_cons,
          List.map_nil, List.flatten_cons, List.flatten_nil, List.append_nil]
        rw [← List.append_assoc, hflat]
    · rw [hadd]
      refine ⟨?_, ?_, ?_⟩
      · intro p hp x hx
        rcases List.mem_append.mp hp with hp' | hp'
        · exact hmem p hp' x hx
        · have hp2 : p = (e.timestamp, [e]) := by simpa using hp'
          subst hp2
          have hxe : x = e := by simpa using hx
          subst hxe
          rfl
      · rw [List.map_append, List.pairwise_append]
        refine ⟨hinc, by simp, ?_⟩
        intro a ha b hb
        have hb2 : b = e.timestamp := by simpa using hb
        subst hb2
        exact hlt a ha
      · simp only [List.map_append, List.flatten_append, List.map_cons,
          List.map_nil, List.flatten_cons, List.flatten_nil, List.append_nil]
        rw [hflat]

/-! ### Structure of `__split_entry` -/

theorem sum_range_map_const (k : ℕ) (v : ℤ) :
    ((List.range k).map (fun _ => v)).sum = (k : ℤ) * v := by
  induction k with
  | zero => simp
  | succ n ih =>
    rw [List.range_succ, List.map_append, List.sum_append, ih]
    push_cast
    simp
    ring

theorem split_entry_le {e : SubtitlesEntry}
    (h : e.end_time - e.start_time ≤ MAX_VALID_MP4_DURATION) :
    split_entry e = [e] := by
  simp only [split_entry]
  rw [if_pos h]

theorem split_entry_gt {e : SubtitlesEntry}
    (h : MAX_VALID_MP4_DURATION < e.end_time - e.start_time) :
    split_entry e =
      ((List.range ((ceilDiv (e.end_time - e.start_time) MAX_VALID_MP4_DURATION).toNat - 1)).map
        fun i : ℕ => SubtitlesEntry.mk e.text
          (e.start_time + divNearest (e.end_time - e.start_time)
            (((ceilDiv (e.end_time - e.start_time) MAX_VALID_MP4_DURATION).toNat : ℕ) : ℤ) * (i : ℤ))
          (e.start_time + divNearest (e.end_time - e.start_time)
            (((ceilDiv (e.end_time - e.start_time) MAX_VALID_MP4_DURATION).toNat : ℕ) : ℤ) * (i : ℤ)
            + divNearest (e.end_time - e.start_time)
              (((ceilDiv (e.end_time - e.start_time) MAX_VALID_MP4_DURATION).toNat : ℕ) : ℤ)))
      ++ [SubtitlesEntry.mk e.text
            (e.start_time + divNearest (e.end_time - e.start_time)
              (((ceilDiv (e.end_time - e.start_time) MAX_VALID_MP4_DURATION).toNat : ℕ) : ℤ)
              * ((((ceilDiv (e.end_time - e.start_time) MAX_VALID_MP4_DURATION).toNat : ℕ) : ℤ) - 1))
            e.end_time] := by
  simp only [split_entry]
  rw [if_neg (not_le.mpr h)]

theorem parts_ge_two {d : ℤ} (h : MAX_VALID_MP4_DURATION < d) :
    2 ≤ (ceilDiv d MAX_VALID_MP4_DURATION).toNat := by
  have hL : (0 : ℤ) < MAX_VALID_MP4_DURATION := by norm_num [MAX_VALID_MP4_DURATION]
  have h2 : (2 : ℤ) ≤ ceilDiv d MAX_VALID_MP4_DURATION := by
    unfold ceilDiv
    rw [Int.le_ediv_iff_mul_le hL]
    linarith
  exact (Int.le_toNat (by linarith)).mpr (by exact_mod_cast h2)

theorem splitShape_length (text : String) (s per endt : ℤ) (p : ℕ) (hp : 1 ≤ p) :
    (((List.range (p - 1)).map fun i : ℕ =>
        SubtitlesEntry.mk text (s + per * (i : ℤ)) (s + per * (i : ℤ) + per))
      ++ [SubtitlesEntry.mk text (s + per * ((p : ℤ) - 1)) endt]).length = p := by
  simp only [List.length_append, List.length_map, List.length_range,
    List.length_singleton]
  omega

theorem splitShape_chain (text : String) (s per endt : ℤ) (p : ℕ) (hp : 2 ≤ p) :
    (((List.range (p - 1)).map fun i : ℕ =>
        SubtitlesEntry.mk text (s + per * (i : ℤ)) (s + per * (i : ℤ) + per))
      ++ [SubtitlesEntry.mk text (s + per * ((p : ℤ) - 1)) endt]).Chain'
        (fun a b => a.end_time = b.start_time) := by
  rw [List.chain'_append]
  refine ⟨?_, List.chain'_singleton _, ?_⟩
  · rw [List.chain'_map]
    have h1 : p - 1 = (p - 2) + 1 := by omega
    rw [h1, List.chain'_range_succ]
    intro m hm
    show s + per * (m : ℤ) + per = s + per * ((m + 1 : ℕ) : ℤ)
    push_cast
    ring
  · intro x hx y hy
    have h1 : p - 1 = (p - 2) + 1 := by omega
    rw [h1, List.range_succ, List.map_append] at hx
    simp only [List.map_cons, List.map_nil] at hx
    rw [List.getLast?_concat] at hx
    cases hx
    cases hy
    show s + per * ((p - 2 : ℕ) : ℤ) + per = s + per * ((p : ℤ) - 1)
    have hc : ((p - 2 : ℕ) : ℤ) = (p : ℤ) - 2 := by omega
    rw [hc]
    ring

theorem splitShape_head (text : String) (s per endt : ℤ) (p : ℕ) (hp : 2 ≤ p) :
    ((((List.range (p - 1)).map fun i : ℕ =>
        SubtitlesEntry.mk text (s + per * (i : ℤ)) (s + per * (i : ℤ) + per))
      ++ [SubtitlesEntry.mk text (s + per * ((p : ℤ) - 1)) endt]).head?).map
        (fun c => c.start_time) = some s := by
  have h1 : p - 1 = (p - 2) + 1 := by omega
  rw [h1, List.range_succ_eq_map, List.map_cons, List.cons_append]
  simp

theorem splitShape_last (text : String) (s per endt : ℤ) (p : ℕ) :
    ((((List.range (p - 1)).map fun i : ℕ =>
        SubtitlesEntry.mk text (s + per * (i : ℤ)) (s + per * (i : ℤ) + per))
      ++ [SubtitlesEntry.mk text (s + per * ((p : ℤ) - 1)) endt]).getLast?).map
        (fun c => c.end_time) = some endt := by
  rw [List.getLast?_concat]
  rfl

theorem splitShape_texts (text : String) (s per endt : ℤ) (p : ℕ) :
    ∀ c ∈ ((List.range (p - 1)).map fun i : ℕ =>
        SubtitlesEntry.mk text (s + per * (i : ℤ)) (s + per * (i : ℤ) + per))
      ++ [SubtitlesEntry.mk text (s + per * ((p : ℤ) - 1)) endt], c.text = text := by
  intro c hc
  rcases List.mem_append.mp hc with hc' | hc'
  · obtain ⟨i, _, rfl⟩ := List.mem_map.mp hc'
    rfl
  · have : c = SubtitlesEntry.mk text (s + per * ((p : ℤ) - 1)) endt := by
      simpa using hc'
    subst this
    rfl

theorem splitShape_sum (text : String) (s per endt : ℤ) (p : ℕ) (hp : 1 ≤ p) :
    ((((List.range (p - 1)).map fun i : ℕ =>
        SubtitlesEntry.mk text (s + per * (i : ℤ)) (s + per * (i : ℤ) + per))
      ++ [SubtitlesEntry.mk text (s + per * ((p : ℤ) - 1)) endt]).map
        (fun c => c.end_time - c.start_time)).sum = endt - s := by
  rw [List.map_append, List.sum_append, List.map_map]
  have h2 : List.map ((fun c : SubtitlesEntry => c.end_time - c.start_time) ∘ fun i : ℕ =>
      SubtitlesEntry.mk text (s + per * (i : ℤ)) (s + per * (i : ℤ) + per)) (List.range (p - 1))
      = List.map (fun _ => per) (List.range (p - 1)) := by
    refine List.map_congr_left ?_
    intro a _
    simp
  rw [h2, sum_range_map_const]
  have hc : ((p - 1 : ℕ) : ℤ) = (p : ℤ) - 1 := by omega
  simp only [List.map_cons, List.map_nil, List.sum_cons, List.sum_nil]
  rw [hc]
  ring

/-! ### The clamping step -/

theorem clampLast_concat (l : List SubtitlesEntry) (e : SubtitlesEntry) (T : ℤ) :
    clampLast (l ++ [e]) T
      = l ++ [SubtitlesEntry.mk e.text e.start_time (min e.end_time T)] := by
  induction l with
  | nil => rfl
  | cons a l ih =>
    obtain ⟨b, l2, hb⟩ : ∃ b l2, l ++ [e] = b :: l2 := by
      cases l <;> exact ⟨_, _, rfl⟩
    show clampLast (a :: (l ++ [e])) T = _
    rw [hb]
    have hstep : clampLast (a :: b :: l2) T = a :: clampLast (b :: l2) T := rfl
    rw [hstep, ← hb, ih]
    rfl

/-! ### The gap-filling walk -/

theorem gapWalk_eq_zip (gape_placeholder : String) :
    ∀ (rest : List SubtitlesEntry) (prev : SubtitlesEntry),
    (((prev :: rest).zip rest).flatMap fun pc =>
        (if MAX_VALID_MP4_DURATION < pc.2.start_time - pc.1.end_time
         then [SubtitlesEntry.mk gape_placeholder pc.1.end_time pc.2.start_time]
         else [])
        ++ [SubtitlesEntry.mk pc.2.text pc.2.start_time pc.2.end_time])
      = gapWalk gape_placeholder prev.end_time rest := by
  intro rest
  induction rest with
  | nil => intro prev; rfl
  | cons c rest ih =>
    intro prev
    rw [List.zip_cons_cons, List.flatMap_cons, ih c]
    rw [gapWalk]
    have hc : SubtitlesEntry.mk c.text c.start_time c.end_time = c := rfl
    rw [List.append_assoc, hc]
    rfl

/-- C2 (corrected, amended): for every input of at least two cues, the
gap-filling step behaves exactly as the spec's walk: consecutive cue pairs
are visited with offset zero as the implicit previous end before the first
cue, and one placeholder cue spanning `[previous.end, next.start]` is emitted
before each real cue whose gap strictly exceeds the duration limit.  The
restriction to two or more cues is forced by the code: for fewer than two
cues `__fill_gapes` yields nothing at all (see the counterexample), so the
implicit-zero check does not reach a lone cue. -/
theorem fill_gapes_eq_gapWalk (entries : List SubtitlesEntry) (ph : String)
    (h : 2 ≤ entries.length) : fill_gapes entries ph = gapWalk ph 0 entries := by
  unfold fill_gapes
  rw [if_neg (by omega)]
  exact gapWalk_eq_zip ph entries (SubtitlesEntry.mk ph 0 0)

/-! ### Recovering each group's cue block from the `to_subtitles` output -/

theorem cueSpan_split_group {g : List BbbChatEntry} (hg : g ≠ []) (d : ℤ) :
    cueSpan (split_group g d) = d := by
  unfold cueSpan
  rw [split_group_lastD_end hg, split_group_headD hg]
  ring

theorem blockAt_eq (gs : List (List BbbChatEntry)) (max_duration : ℤ) :
    ∀ i, i < gs.length →
      blockAt gs max_duration i
        = split_group (gs.getD i [])
            (allotted max_duration (gs.getD i []) (gs.drop (i + 1))) := by
  induction gs with
  | nil => intro i hi; simp at hi
  | cons g rest ih =>
    intro i hi
    cases i with
    | zero =>
      show ((emitGroups (g :: rest) max_duration).drop
          (((List.take 0 (g :: rest)).map List.length).sum)).take
          ((g :: rest).getD 0 []).length = _
      rw [emitGroups_cons]
      simp only [List.take_zero, List.map_nil, List.sum_nil, List.drop_zero,
        List.getD_cons_zero]
      rw [← split_group_length g (allotted max_duration g rest), List.take_left]
      rfl
    | succ i =>
      have hi' : i < rest.length := by simpa using hi
      show ((emitGroups (g :: rest) max_duration).drop
          (((List.take (i + 1) (g :: rest)).map List.length).sum)).take
          ((g :: rest).getD (i + 1) []).length = _
      rw [emitGroups_cons, List.take_succ_cons, List.map_cons, List.sum_cons]
      rw [← split_group_length g (allotted max_duration g rest), ← List.drop_drop,
        List.drop_left, List.getD_cons_succ]
      exact ih i hi'

/-! ### Linking groups back to the entry sequence -/

theorem flatten_getLast? {α : Type} :
    ∀ (L : List (List α)) (hL : L ≠ []), (∀ l ∈ L, l ≠ []) →
      L.flatten.getLast? = (L.getLast hL).getLast? := by
  intro L
  induction L with
  | nil => intro h; exact absurd rfl h
  | cons l rest ih =>
    intro _ hne
    cases rest with
    | nil => simp
    | cons l2 rest' =>
      rw [List.flatten_cons, List.getLast?_append,
        ih (by simp) (fun x hx => hne x (List.mem_cons_of_mem _ hx)),
        List.getLast_cons (by simp : (l2 :: rest' : List (List α)) ≠ [])]
      have hlast_ne : ((l2 :: rest').getLast (by simp)) ≠ [] :=
        hne _ (List.mem_cons_of_mem _ (List.getLast_mem (by simp)))
      cases h3 : ((l2 :: rest').getLast (by simp)).getLast? with
      | none => exact absurd (List.getLast?_eq_none_iff.mp h3) hlast_ne
      | some y => rfl

theorem groupsByTimestamp_flatten (entries : List BbbChatEntry)
    (hs : entries.Pairwise (fun a b => a.timestamp ≤ b.timestamp)) :
    (groupsByTimestamp entries).flatten = entries :=
  (grouped_inv entries hs).2.2

theorem groupsByTimestamp_ts (entries : List BbbChatEntry)
    (hs : entries.Pairwise (fun a b => a.timestamp ≤ b.timestamp)) :
    ∀ g ∈ groupsByTimestamp entries, ∀ x ∈ g, x.timestamp = headTs g := by
  intro g hg x hx
  rw [groupsByTimestamp] at hg
  obtain ⟨p, hp, rfl⟩ := List.mem_map.mp hg
  have h1 := (grouped_inv entries hs).1 p hp x hx
  obtain ⟨y, t, hy⟩ := List.exists_cons_of_ne_nil
    (foldl_addEntry_snd_ne_nil entries [] (by simp) p hp)
  have h2 := (grouped_inv entries hs).1 p hp y (by rw [hy]; simp)
  rw [hy]
  show x.timestamp = y.timestamp
  rw [h1, h2]

/-! ## Claim theorems -/

/-- C2 counterexample: the claim quantifies over every cue sequence and says
the implicit-zero walk applies even to a single (only) real cue; but
`__fill_gapes` drops a lone cue entirely — it emits neither the cue nor the
placeholder the walk would produce for its oversized leading gap. -/
theorem fill_gapes_single_cue_cex :
    fill_gapes [SubtitlesEntry.mk "a" 2147483648 2147483649] " " = []
    ∧ gapWalk " " 0 [SubtitlesEntry.mk "a" 2147483648 2147483649]
        = [SubtitlesEntry.mk " " 0 2147483648,
           SubtitlesEntry.mk "a" 2147483648 2147483649]
    ∧ fill_gapes [SubtitlesEntry.mk "a" 2147483648 2147483649] " "
        ≠ gapWalk " " 0 [SubtitlesEntry.mk "a" 2147483648 2147483649] := by
  refine ⟨by decide, by decide, by decide⟩

/-- C2 witness: a two-cue input with an oversized gap between the cues, run
through both the code's gap filler and the spec's walk. -/
theorem fill_gapes_eq_gapWalk_witness :
    fill_gapes [SubtitlesEntry.mk "a" 0 1000000,
        SubtitlesEntry.mk "b" 2200000000 2200000001] " "
      = gapWalk " " 0 [SubtitlesEntry.mk "a" 0 1000000,
          SubtitlesEntry.mk "b" 2200000000 2200000001] :=
  fill_gapes_eq_gapWalk _ _ (by decide)

/-- C10 (confirmed): an input of fewer than two cues makes `apply_mp4_fixes`
return the empty sequence — `__fill_gapes` is a generator that returns
without yielding when `len(entries) < 2`, so a single input cue is dropped
entirely: never emitted, gap-filled, split, or clamped. -/
theorem apply_mp4_fixes_short_input (entries : List SubtitlesEntry)
    (recording_duration : Option ℤ) (ph : String) (h : entries.length < 2) :
    apply_mp4_fixes entries recording_duration ph = [] := by
  have hfill : fill_gapes entries ph = [] := by
    unfold fill_gapes
    rw [if_pos h]
  unfold apply_mp4_fixes
  rw [hfill]
  cases recording_duration with
  | none => rfl
  | some d => rfl

/-- C10 witness: one concrete cue is dropped wholesale. -/
theorem apply_mp4_fixes_short_input_witness :
    apply_mp4_fixes [SubtitlesEntry.mk "a" 5000000 8000000] (some 4000000) " "
      = [] :=
  apply_mp4_fixes_short_input _ _ _ (by decide)

/-- C9 (confirmed): when the pass's result is non-empty (written as
`pre ++ [lastCue]`) and the supplied recording duration `T` is below the last
cue's end, the clamping step replaces only the last cue, keeping its text and
start and setting its end to exactly `T`; every other cue is unchanged. -/
theorem apply_mp4_fixes_clamps_only_last (entries : List SubtitlesEntry)
    (T : ℤ) (ph : String) (pre : List SubtitlesEntry) (lastCue : SubtitlesEntry)
    (hbase : apply_mp4_fixes entries none ph = pre ++ [lastCue])
    (hT : T < lastCue.end_time) :
    apply_mp4_fixes entries (some T) ph
      = pre ++ [SubtitlesEntry.mk lastCue.text lastCue.start_time T] := by
  have hsome : apply_mp4_fixes entries (some T) ph
      = clampLast (apply_mp4_fixes entries none ph) T := rfl
  rw [hsome, hbase, clampLast_concat, min_eq_right hT.le]

/-- C9 witness: `T = 6s` cuts only the last cue of a two-cue result. -/
theorem apply_mp4_fixes_clamps_only_last_witness :
    apply_mp4_fixes [SubtitlesEntry.mk "a" 0 1000000,
        SubtitlesEntry.mk "b" 5000000 8000000] (some 6000000) " "
      = [SubtitlesEntry.mk "a" 0 1000000]
          ++ [SubtitlesEntry.mk "b" 5000000 6000000] :=
  apply_mp4_fixes_clamps_only_last _ 6000000 _ [SubtitlesEntry.mk "a" 0 1000000]
    (SubtitlesEntry.mk "b" 5000000 8000000) (by decide) (by decide)

/-- C1 (corrected, amended): `apply_mp4_fixes` raises no usage fault.  When
the supplied total recording duration `T` lies below the last cue's start
(and not above its end), the pass silently replaces the last cue's end with
`T`, so the returned sequence ends in a cue with `end_time < start_time` —
the inverted cue the original claim said would be rejected. -/
theorem apply_mp4_fixes_clamp_silently_inverts (entries : List SubtitlesEntry)
    (T : ℤ) (ph : String) (pre : List SubtitlesEntry) (lastCue : SubtitlesEntry)
    (hbase : apply_mp4_fixes entries none ph = pre ++ [lastCue])
    (hstart : T < lastCue.start_time) (hend : T ≤ lastCue.end_time) :
    apply_mp4_fixes entries (some T) ph
      = pre ++ [SubtitlesEntry.mk lastCue.text lastCue.start_time T]
    ∧ ((apply_mp4_fixes entries (some T) ph).getLastD
          (SubtitlesEntry.mk "" 0 0)).end_time
      < ((apply_mp4_fixes entries (some T) ph).getLastD
          (SubtitlesEntry.mk "" 0 0)).start_time := by
  have hsome : apply_mp4_fixes entries (some T) ph
      = clampLast (apply_mp4_fixes entries none ph) T := rfl
  rw [hsome, hbase, clampLast_concat, min_eq_right hend]
  refine ⟨rfl, ?_⟩
  rw [List.getLastD_concat]
  exact hstart

/-- C1 counterexample: recording duration `4s` with a last cue at `5s–8s`:
the pass returns normally (it is a total function, nothing is raised) and
the final cue comes back inverted as `5s–4s`. -/
theorem apply_mp4_fixes_no_usage_fault_cex :
    apply_mp4_fixes [SubtitlesEntry.mk "a" 0 1000000,
        SubtitlesEntry.mk "b" 5000000 8000000] (some 4000000) " "
      = [SubtitlesEntry.mk "a" 0 1000000, SubtitlesEntry.mk "b" 5000000 4000000]
    ∧ ¬ (∀ c ∈ apply_mp4_fixes [SubtitlesEntry.mk "a" 0 1000000,
          SubtitlesEntry.mk "b" 5000000 8000000] (some 4000000) " ",
          c.start_time ≤ c.end_time) := by
  refine ⟨by decide, by decide⟩

/-- C1 witness: the amended theorem applied at the counterexample's input. -/
theorem apply_mp4_fixes_clamp_silently_inverts_witness :
    apply_mp4_fixes [SubtitlesEntry.mk "a" 0 1000000,
        SubtitlesEntry.mk "b" 5000000 8000000] (some 4000000) " "
      = [SubtitlesEntry.mk "a" 0 1000000]
          ++ [SubtitlesEntry.mk "b" 5000000 4000000]
    ∧ ((apply_mp4_fixes [SubtitlesEntry.mk "a" 0 1000000,
          SubtitlesEntry.mk "b" 5000000 8000000] (some 4000000) " ").getLastD
            (SubtitlesEntry.mk "" 0 0)).end_time
      < ((apply_mp4_fixes [SubtitlesEntry.mk "a" 0 1000000,
          SubtitlesEntry.mk "b" 5000000 8000000] (some 4000000) " ").getLastD
            (SubtitlesEntry.mk "" 0 0)).start_time :=
  apply_mp4_fixes_clamp_silently_inverts _ 4000000 _
    [SubtitlesEntry.mk "a" 0 1000000] (SubtitlesEntry.mk "b" 5000000 8000000)
    (by decide) (by decide) (by decide)

/-- C3 (corrected, amended): for a non-empty, timestamp-ordered entry
sequence, the Grouper's output starts exactly at the first entry's timestamp,
ends exactly at the last entry's timestamp plus `max_duration`, and never
overlaps (each cue ends no later than the next begins).  The original claim's
"no gaps between consecutive groups" is dropped: whenever the timestamp gap
to the next group exceeds `max_duration` the code leaves the interval between
`group.timestamp + max_duration` and the next group's timestamp uncovered
(see the counterexample). -/
theorem to_subtitles_endpoints (entries : List BbbChatEntry) (max_duration : ℤ)
    (hne : entries ≠ [])
    (hs : entries.Pairwise (fun a b => a.timestamp ≤ b.timestamp)) :
    ((to_subtitles entries max_duration).head?).map (fun c => c.start_time)
        = (entries.head?).map (fun e => e.timestamp)
    ∧ ((to_subtitles entries max_duration).getLast?).map (fun c => c.end_time)
        = (entries.getLast?).map (fun e => e.timestamp + max_duration)
    ∧ (to_subtitles entries max_duration).Chain'
        (fun a b => a.end_time ≤ b.start_time) := by
  have hne_g := groupsByTimestamp_ne_nil entries
  have hflat : (groupsByTimestamp entries).flatten = entries :=
    groupsByTimestamp_flatten entries hs
  have hgs_ne : groupsByTimestamp entries ≠ [] := by
    intro h
    rw [h, List.flatten_nil] at hflat
    exact hne hflat.symm
  refine ⟨?_, ?_, ?_⟩
  · obtain ⟨g1, rest, hgs⟩ := List.exists_cons_of_ne_nil hgs_ne
    have hg1 : g1 ≠ [] := hne_g g1 (by rw [hgs]; simp)
    obtain ⟨x, g1t, hx⟩ := List.exists_cons_of_ne_nil hg1
    have hent : entries = x :: (g1t ++ rest.flatten) := by
      rw [← hflat, hgs, hx, List.flatten_cons]
      rfl
    have hlhs : ((to_subtitles entries max_duration).head?).map
        (fun c => c.start_time) = some (headTs g1) := by
      unfold to_subtitles
      rw [hgs,
        head?_eq_headD (emitGroups_ne_nil (by simp) (hgs ▸ hne_g) max_duration)
          (SubtitlesEntry.mk "" 0 0),
        Option.map_some', emitGroups_headD rest max_duration hg1]
    have hrhs : (entries.head?).map (fun e => e.timestamp)
        = some (headTs g1) := by
      rw [hent, hx]
      rfl
    rw [hlhs, hrhs]
  · have hlhs : ((to_subtitles entries max_duration).getLast?).map
        (fun c => c.end_time)
        = some (headTs ((groupsByTimestamp entries).getLast hgs_ne)
            + max_duration) := by
      unfold to_subtitles
      rw [getLast?_eq_getLastD (emitGroups_ne_nil hgs_ne hne_g max_duration)
          (SubtitlesEntry.mk "" 0 0),
        Option.map_some', emitGroups_lastD_end hgs_ne hne_g]
    have hglast_ne : (groupsByTimestamp entries).getLast hgs_ne ≠ [] :=
      hne_g _ (List.getLast_mem hgs_ne)
    have hent_last : entries.getLast?
        = ((groupsByTimestamp entries).getLast hgs_ne).getLast? := by
      conv_lhs => rw [← hflat]
      exact flatten_getLast? _ hgs_ne hne_g
    have hzts : (((groupsByTimestamp entries).getLast hgs_ne).getLast
          hglast_ne).timestamp
        = headTs ((groupsByTimestamp entries).getLast hgs_ne) :=
      groupsByTimestamp_ts entries hs _ (List.getLast_mem hgs_ne) _
        (List.getLast_mem hglast_ne)
    rw [hlhs, hent_last, List.getLast?_eq_getLast _ hglast_ne,
      Option.map_some', hzts]
  · exact emitGroups_chain_le _ max_duration hne_g

/-- C3 counterexample: entries at `0s` and `10s` with `max_duration = 3s`
produce cues `0s–3s` and `10s–13s`: the interval `3s–10s` inside
`[first timestamp, last timestamp + D]` is covered by no cue, so the claimed
gap-free coverage fails. -/
theorem to_subtitles_leaves_gap_cex :
    to_subtitles [BbbChatEntry.mk "a" "x" 0, BbbChatEntry.mk "b" "y" 10000000]
        3000000
      = [SubtitlesEntry.mk "a: x" 0 3000000,
         SubtitlesEntry.mk "b: y" 10000000 13000000]
    ∧ ((to_subtitles [BbbChatEntry.mk "a" "x" 0,
          BbbChatEntry.mk "b" "y" 10000000] 3000000).getD 0
            (SubtitlesEntry.mk "" 0 0)).end_time
      < ((to_subtitles [BbbChatEntry.mk "a" "x" 0,
          BbbChatEntry.mk "b" "y" 10000000] 3000000).getD 1
            (SubtitlesEntry.mk "" 0 0)).start_time := by
  refine ⟨by decide, by decide⟩

/-- C3 witness: the amended endpoint-and-non-overlap theorem applied to the
two-entry input of the counterexample. -/
theorem to_subtitles_endpoints_witness :
    ((to_subtitles [BbbChatEntry.mk "a" "x" 0, BbbChatEntry.mk "b" "y" 10000000]
        3000000).head?).map (fun c => c.start_time)
      = (([BbbChatEntry.mk "a" "x" 0,
          BbbChatEntry.mk "b" "y" 10000000] : List BbbChatEntry).head?).map
          (fun e => e.timestamp)
    ∧ ((to_subtitles [BbbChatEntry.mk "a" "x" 0, BbbChatEntry.mk "b" "y" 10000000]
        3000000).getLast?).map (fun c => c.end_time)
      = (([BbbChatEntry.mk "a" "x" 0,
          BbbChatEntry.mk "b" "y" 10000000] : List BbbChatEntry).getLast?).map
          (fun e => e.timestamp + 3000000)
    ∧ (to_subtitles [BbbChatEntry.mk "a" "x" 0, BbbChatEntry.mk "b" "y" 10000000]
        3000000).Chain' (fun a b => a.end_time ≤ b.start_time) :=
  to_subtitles_endpoints _ 3000000 (by decide) (by decide)

/-- C4 (corrected, amended): for timestamp-ordered entries and positive
`max_duration`, the Grouper's output always satisfies
`cue[i].end ≤ cue[i+1].start`; the remaining two invariants — non-decreasing
starts and `start ≤ end` for every cue — additionally require each group's
size `n` and allotted duration `d` (in microseconds) to satisfy
`n * (n - 1) ≤ 2 * d` (`groupsOk`).  Without that bound, the rounded
`timedelta` division `d / n` can make the pinned last cue of a group start
after its end (see the counterexample). -/
theorem to_subtitles_invariants (entries : List BbbChatEntry) (max_duration : ℤ)
    (hs : entries.Pairwise (fun a b => a.timestamp ≤ b.timestamp))
    (hD : 0 < max_duration) :
    (to_subtitles entries max_duration).Chain'
        (fun a b => a.end_time ≤ b.start_time)
    ∧ (groupsOk (groupsByTimestamp entries) max_duration = true →
        (to_subtitles entries max_duration).Chain'
            (fun a b => a.start_time ≤ b.start_time)
        ∧ ∀ c ∈ to_subtitles entries max_duration,
            c.start_time ≤ c.end_time) :=
  ⟨emitGroups_chain_le _ max_duration (groupsByTimestamp_ne_nil entries),
   fun hok =>
    ⟨emitGroups_chain_start _ max_duration (groupsByTimestamp_ne_nil entries) hok,
     emitGroups_start_le_end _ max_duration hok⟩⟩

/-- C4 counterexample: five simultaneous entries at offset `0` with
`max_duration = 3` microseconds (positive, ordered input).  The rounded part
is `3 / 5 = 1`µs, so the cues run `0–1, 1–2, 2–3, 3–4` and the pinned final
cue is `4–3`: its start exceeds its end, refuting "every cue satisfies
`start ≤ end`" as originally claimed for every positive `D`. -/
theorem to_subtitles_inverted_cue_cex :
    (0 : ℤ) < 3
    ∧ ([BbbChatEntry.mk "a" "1" 0, BbbChatEntry.mk "a" "2" 0,
        BbbChatEntry.mk "a" "3" 0, BbbChatEntry.mk "a" "4" 0,
        BbbChatEntry.mk "a" "5" 0] : List BbbChatEntry).Pairwise
          (fun a b => a.timestamp ≤ b.timestamp)
    ∧ ¬ (∀ c ∈ to_subtitles [BbbChatEntry.mk "a" "1" 0, BbbChatEntry.mk "a" "2" 0,
          BbbChatEntry.mk "a" "3" 0, BbbChatEntry.mk "a" "4" 0,
          BbbChatEntry.mk "a" "5" 0] 3, c.start_time ≤ c.end_time) := by
  refine ⟨by decide, by decide, by decide⟩

/-- C4 witness: the amended invariants at a two-group input whose groups all
satisfy the feasibility bound. -/
theorem to_subtitles_invariants_witness :
    (to_subtitles [BbbChatEntry.mk "a" "x" 0, BbbChatEntry.mk "b" "y" 10000000]
        3000000).Chain' (fun a b => a.end_time ≤ b.start_time)
    ∧ (to_subtitles [BbbChatEntry.mk "a" "x" 0, BbbChatEntry.mk "b" "y" 10000000]
        3000000).Chain' (fun a b => a.start_time ≤ b.start_time)
    ∧ ∀ c ∈ to_subtitles [BbbChatEntry.mk "a" "x" 0,
        BbbChatEntry.mk "b" "y" 10000000] 3000000,
        c.start_time ≤ c.end_time :=
  have h := to_subtitles_invariants [BbbChatEntry.mk "a" "x" 0,
    BbbChatEntry.mk "b" "y" 10000000] 3000000 (by decide) (by decide)
  ⟨h.1, (h.2 (by decide)).1, (h.2 (by decide)).2⟩

/-- C5 (confirmed): in the Grouper's output, the cue block produced for group
`i` spans exactly `min(max_duration, next group's timestamp - this group's
timestamp)` when a next group exists, and exactly the full `max_duration`
for the last group, whatever `max_duration`'s relation to any gap. -/
theorem to_subtitles_allotted_span (entries : List BbbChatEntry)
    (max_duration : ℤ) (i : ℕ) :
    (i + 1 < (groupsByTimestamp entries).length →
      cueSpan (blockAt (groupsByTimestamp entries) max_duration i)
        = min max_duration
            (headTs ((groupsByTimestamp entries).getD (i + 1) [])
              - headTs ((groupsByTimestamp entries).getD i [])))
    ∧ (i + 1 = (groupsByTimestamp entries).length →
      cueSpan (blockAt (groupsByTimestamp entries) max_duration i)
        = max_duration) := by
  constructor
  · intro hi
    have hi' : i < (groupsByTimestamp entries).length := by omega
    have hgetne : (groupsByTimestamp entries).getD i [] ≠ [] := by
      rw [List.getD_eq_getElem _ _ hi']
      exact groupsByTimestamp_ne_nil entries _ (List.getElem_mem hi')
    rw [blockAt_eq _ max_duration i hi', cueSpan_split_group hgetne,
      List.drop_eq_getElem_cons hi]
    simp only [allotted]
    rw [List.getD_eq_getElem _ _ hi]
  · intro hi
    have hi' : i < (groupsByTimestamp entries).length := by omega
    have hgetne : (groupsByTimestamp entries).getD i [] ≠ [] := by
      rw [List.getD_eq_getElem _ _ hi']
      exact groupsByTimestamp_ne_nil entries _ (List.getElem_mem hi')
    rw [blockAt_eq _ max_duration i hi', cueSpan_split_group hgetne,
      List.drop_eq_nil_of_le (by omega)]
    rfl

/-- C5 witness: two groups at `0s` and `10s` with `max_duration = 3s`: the
first block spans `min(3s, 10s) = 3s` and the last block spans the full
`3s`. -/
theorem to_subtitles_allotted_span_witness :
    cueSpan (blockAt (groupsByTimestamp [BbbChatEntry.mk "a" "x" 0,
        BbbChatEntry.mk "b" "y" 10000000]) 3000000 0) = 3000000
    ∧ cueSpan (blockAt (groupsByTimestamp [BbbChatEntry.mk "a" "x" 0,
        BbbChatEntry.mk "b" "y" 10000000]) 3000000 1) = 3000000 :=
  ⟨((to_subtitles_allotted_span _ 3000000 0).1 (by decide)).trans (by decide),
   (to_subtitles_allotted_span _ 3000000 1).2 (by decide)⟩

/-- C6 (confirmed): a group of `n` entries with allotted duration `d` yields
exactly `n` cues in entry order.  With `part = d / n` (the code's
`timedelta` division, `divNearest`), cue `i` (for `i + 1 < n`) runs from
`start + part * i` to `start + part * i + part`, adjacent cues share their
boundary, and the final cue's end is pinned to exactly `start + d` rather
than derived by repeated addition.  In particular three entries at `10s`
with `d = 3s` yield `10–11s`, `11–12s`, `12–13s` (see the witness). -/
theorem split_group_divides_evenly (g : List BbbChatEntry) (d : ℤ)
    (hg : g ≠ []) :
    (split_group g d).length = g.length
    ∧ (split_group g d).map (fun c => c.text) = g.map build_text
    ∧ (∀ i : ℕ, i + 1 < g.length →
        (split_group g d).getD i (SubtitlesEntry.mk "" 0 0)
          = SubtitlesEntry.mk (build_text (g.getD i (BbbChatEntry.mk "" "" 0)))
              (headTs g + divNearest d (g.length : ℤ) * (i : ℤ))
              (headTs g + divNearest d (g.length : ℤ) * (i : ℤ)
                + divNearest d (g.length : ℤ)))
    ∧ (split_group g d).getD (g.length - 1) (SubtitlesEntry.mk "" 0 0)
        = SubtitlesEntry.mk (build_text (g.getLast hg))
            (headTs g + divNearest d (g.length : ℤ) * ((g.length : ℤ) - 1))
            (headTs g + d)
    ∧ (split_group g d).Chain' (fun a b => a.end_time = b.start_time) := by
  cases g with
  | nil => exact absurd rfl hg
  | cons g0 rest =>
    refine ⟨split_group_go_length _ _ _ _, split_group_go_texts _ _ _ _,
      ?_, ?_, split_group_go_chain_eq _ _ _ _⟩
    · intro i hi
      exact split_group_go_getD_lt (g0 :: rest) g0.timestamp _ _ i hi _
    · exact split_group_go_getD_last (g0 :: rest) (by simp) g0.timestamp _ _ _

/-- C6 witness: Scenario 1 of the spec — three entries at `00:00:10` split a
3-second allotted duration into three 1-second cues. -/
theorem split_group_divides_evenly_witness :
    (split_group [BbbChatEntry.mk "a" "x" 10000000,
        BbbChatEntry.mk "b" "y" 10000000,
        BbbChatEntry.mk "c" "z" 10000000] 3000000).getD 0
          (SubtitlesEntry.mk "" 0 0)
      = SubtitlesEntry.mk "a: x" 10000000 11000000
    ∧ (split_group [BbbChatEntry.mk "a" "x" 10000000,
        BbbChatEntry.mk "b" "y" 10000000,
        BbbChatEntry.mk "c" "z" 10000000] 3000000).getD 1
          (SubtitlesEntry.mk "" 0 0)
      = SubtitlesEntry.mk "b: y" 11000000 12000000
    ∧ (split_group [BbbChatEntry.mk "a" "x" 10000000,
        BbbChatEntry.mk "b" "y" 10000000,
        BbbChatEntry.mk "c" "z" 10000000] 3000000).getD (3 - 1)
          (SubtitlesEntry.mk "" 0 0)
      = SubtitlesEntry.mk "c: z" 12000000 13000000 := by
  have h := split_group_divides_evenly [BbbChatEntry.mk "a" "x" 10000000,
    BbbChatEntry.mk "b" "y" 10000000, BbbChatEntry.mk "c" "z" 10000000]
    3000000 (by decide)
  exact ⟨(h.2.2.1 0 (by decide)).trans (by decide),
    (h.2.2.1 1 (by decide)).trans (by decide),
    (h.2.2.2.1).trans (by decide)⟩

/-- C7 (confirmed): a cue whose duration is at most the limit passes through
`__split_entry` unchanged; a cue whose duration strictly exceeds the limit is
split into exactly `ceil(duration / limit)` sub-cues, all carrying the
original text, contiguous (each sub-cue ends where the next starts), with the
first sub-cue starting at the original start, the last sub-cue ending at the
original end, and the sub-cue durations summing to the original duration. -/
theorem split_entry_spec (e : SubtitlesEntry) :
    (e.end_time - e.start_time ≤ MAX_VALID_MP4_DURATION → split_entry e = [e])
    ∧ (MAX_VALID_MP4_DURATION < e.end_time - e.start_time →
        ((split_entry e).length : ℤ)
            = ceilDiv (e.end_time - e.start_time) MAX_VALID_MP4_DURATION
        ∧ (∀ c ∈ split_entry e, c.text = e.text)
        ∧ (split_entry e).Chain' (fun a b => a.end_time = b.start_time)
        ∧ ((split_entry e).head?).map (fun c => c.start_time)
            = some e.start_time
        ∧ ((split_entry e).getLast?).map (fun c => c.end_time)
            = some e.end_time
        ∧ ((split_entry e).map (fun c => c.end_time - c.start_time)).sum
            = e.end_time - e.start_time) := by
  constructor
  · exact fun h => split_entry_le h
  · intro h
    have hp2 : 2 ≤ (ceilDiv (e.end_time - e.start_time)
        MAX_VALID_MP4_DURATION).toNat := parts_ge_two h
    have hnn : 0 ≤ ceilDiv (e.end_time - e.start_time) MAX_VALID_MP4_DURATION := by
      by_contra hneg
      push_neg at hneg
      rw [Int.toNat_of_nonpos hneg.le] at hp2
      omega
    rw [split_entry_gt h]
    refine ⟨?_, splitShape_texts _ _ _ _ _, splitShape_chain _ _ _ _ _ hp2,
      ?_, splitShape_last _ _ _ _ _, ?_⟩
    · rw [splitShape_length _ _ _ _ _ (by omega)]
      exact Int.toNat_of_nonneg hnn
    · rw [splitShape_head _ _ _ _ _ hp2]
    · rw [splitShape_sum _ _ _ _ _ (by omega)]

/-- C7 witness: a 1-second cue is passed through unchanged; a cue of duration
`2 * (2^31 - 1)` µs is split into `ceil = 2` parts whose durations sum back
to the original duration. -/
theorem split_entry_spec_witness :
    split_entry (SubtitlesEntry.mk "x" 0 1000000)
      = [SubtitlesEntry.mk "x" 0 1000000]
    ∧ ((split_entry (SubtitlesEntry.mk "y" 0 4294967294)).length : ℤ) = 2
    ∧ ((split_entry (SubtitlesEntry.mk "y" 0 4294967294)).map
        (fun c => c.end_time - c.start_time)).sum = 4294967294 := by
  have h1 := (split_entry_spec (SubtitlesEntry.mk "x" 0 1000000)).1 (by decide)
  have h2 := (split_entry_spec (SubtitlesEntry.mk "y" 0 4294967294)).2 (by decide)
  exact ⟨h1, h2.1.trans (by decide), (h2.2.2.2.2.2).trans (by decide)⟩

/-- C8 (code bug): the Format Compliance Pass is not idempotent.  For a cue
of duration `5 * (2^31 - 1) - 3` µs (about 2.98 hours), the split computes
`parts = 5` and the rounded part `duration / 5` loses 2µs per part, so the
pinned last sub-cue has duration `2^31` µs — one more than
`MAX_VALID_MP4_DURATION`, the very limit `apply_mp4_fixes` exists to
enforce.  A second application therefore splits that sub-cue again: the
first pass yields 6 cues, the second 7, and the results differ. -/
theorem apply_mp4_fixes_not_idempotent_cex :
    (apply_mp4_fixes [SubtitlesEntry.mk "a" 0 0,
        SubtitlesEntry.mk "b" 0 10737418232] (some 10737418232) " ").length = 6
    ∧ (apply_mp4_fixes (apply_mp4_fixes [SubtitlesEntry.mk "a" 0 0,
        SubtitlesEntry.mk "b" 0 10737418232] (some 10737418232) " ")
        (some 10737418232) " ").length = 7
    ∧ apply_mp4_fixes (apply_mp4_fixes [SubtitlesEntry.mk "a" 0 0,
        SubtitlesEntry.mk "b" 0 10737418232] (some 10737418232) " ")
        (some 10737418232) " "
      ≠ apply_mp4_fixes [SubtitlesEntry.mk "a" 0 0,
          SubtitlesEntry.mk "b" 0 10737418232] (some 10737418232) " "
    ∧ ¬ (∀ c ∈ apply_mp4_fixes [SubtitlesEntry.mk "a" 0 0,
          SubtitlesEntry.mk "b" 0 10737418232] (some 10737418232) " ",
          c.end_time - c.start_time ≤ MAX_VALID_MP4_DURATION) := by
  refine ⟨by decide, by decide, by decide, by decide⟩
